import Mathlib

/-!
Verification of the Shoot private-perpetuals client against its specification.

The definitions below are a shallow embedding of the TypeScript sources:
`src/lib/arcium-client.ts` (the `ArciumClient` class), the test harness
(`tests/shoot.ts`, given as `unnamed/part_000`) and the trading dashboard
(`src/components/trading/trading-dashboard.tsx`).  The `RescueCipher`
primitive, the x25519 key exchange and the on-chain program are external to
the repository; where a claim depends on them they are modelled from the
specification's stated contracts, each such definition carrying a
`Modelled from the spec:` doc comment.
-/

/-- Modelled from the spec: the Rescue cipher operates over a large prime
field; the spec fixes only that plaintexts are integers "within the field's
range".  We fix a concrete large prime-sized modulus for the embedding. -/
def fieldModulus : ℕ := 2 ^ 255 - 19

/-- A keystream for the symmetric cipher: secret → nonce → position → pad.
The cipher is modelled as a stream cipher, which is what the spec's contract
(deterministic encrypt/decrypt, round trip identity, nonce-dependent
ciphertext) describes; the concrete keystream is kept abstract. -/
abbrev Keystream := ℕ → ℕ → ℕ → ℕ

/-- Modelled from the spec: encryption of one field element at stream
position `i` under `secret` and `nonce`: the plaintext is masked by the
keystream pad and reduced into the field. -/
def cipherEncryptVal (ks : Keystream) (secret nonce i : ℕ) (v : ℤ) : ℕ :=
  ((v + (ks secret nonce i : ℤ)) % (fieldModulus : ℤ)).toNat

/-- Modelled from the spec: decryption of one field element at stream
position `i`, the inverse masking. -/
def cipherDecryptVal (ks : Keystream) (secret nonce i : ℕ) (c : ℕ) : ℤ :=
  ((c : ℤ) - (ks secret nonce i : ℤ)) % (fieldModulus : ℤ)

/-- Modelled from the spec: `cipher.encrypt(values, nonce)` encrypts a list
of field elements, the `i`-th value at stream position `i` (each call to
`encrypt` restarts the stream at position `argIdx`). -/
def cipherEncryptFrom (ks : Keystream) (secret nonce i : ℕ) : List ℤ → List ℕ
  | [] => []
  | v :: vs => cipherEncryptVal ks secret nonce i v ::
      cipherEncryptFrom ks secret nonce (i + 1) vs

/-- Modelled from the spec: `cipher.encrypt(values, nonce)`. -/
def cipherEncrypt (ks : Keystream) (secret nonce : ℕ) (vals : List ℤ) : List ℕ :=
  cipherEncryptFrom ks secret nonce 0 vals

/-- Modelled from the spec: element-wise decryption starting at position `i`. -/
def cipherDecryptFrom (ks : Keystream) (secret nonce i : ℕ) : List ℕ → List ℤ
  | [] => []
  | c :: cs => cipherDecryptVal ks secret nonce i c ::
      cipherDecryptFrom ks secret nonce (i + 1) cs

/-- Modelled from the spec: `cipher.decrypt(ciphertexts, nonce)`. -/
def cipherDecrypt (ks : Keystream) (secret nonce : ℕ) (cs : List ℕ) : List ℤ :=
  cipherDecryptFrom ks secret nonce 0 cs

/-- Position side, `'long' | 'short'` in the client's interface. -/
inductive Side where
  | long
  | short
  deriving DecidableEq

/-- The numeric encoding of the side used at the encryption boundary
(`arcium-client.ts` line 102: `BigInt(params.side === 'long' ? 1 : 0)`). -/
def sideToInt (s : Side) : ℤ :=
  match s with
  | Side.long => 1
  | Side.short => 0

/-- Plaintext trade parameters as passed to `ArciumClient.encryptTradeParams`
(JS numbers embedded as rationals). -/
structure TradeParams where
  side : Side
  sizeUsd : ℚ
  collateral : ℚ
  entryPrice : ℚ

/-- The `EncryptedTradeParams` result of `encryptTradeParams`: four
ciphertext field elements, the client's public key and the nonce used. -/
structure EncryptedTradeParams where
  side : ℕ
  sizeUsd : ℕ
  collateral : ℕ
  entryPrice : ℕ
  publicKey : ℕ
  nonce : ℕ
  deriving DecidableEq

/-- Embedding of `ArciumClient.encryptTradeParams` (arcium-client.ts lines
86–121).  `dh` models `x25519.getSharedSecret`; `nonce` is the value of
`randomBytes(16)` drawn inside the call.  Note that the source encrypts each
of the four parameters by a separate `cipher.encrypt([v], nonce)[0]`
invocation, all sharing the one nonce generated at line 99. -/
def encryptTradeParams (ks : Keystream) (dh : ℕ → ℕ → ℕ)
    (privateKey mxePublicKey publicKey nonce : ℕ) (params : TradeParams) :
    EncryptedTradeParams :=
  let sharedSecret := dh privateKey mxePublicKey
  let sideBigInt : ℤ := sideToInt params.side
  let sizeUsdBigInt : ℤ := ⌊params.sizeUsd * 1000000⌋
  let collateralBigInt : ℤ := ⌊params.collateral * 1000000⌋
  let entryPriceBigInt : ℤ := ⌊params.entryPrice * 1000000⌋
  { side := (cipherEncrypt ks sharedSecret nonce [sideBigInt]).headI
    sizeUsd := (cipherEncrypt ks sharedSecret nonce [sizeUsdBigInt]).headI
    collateral := (cipherEncrypt ks sharedSecret nonce [collateralBigInt]).headI
    entryPrice := (cipherEncrypt ks sharedSecret nonce [entryPriceBigInt]).headI
    publicKey := publicKey
    nonce := nonce }

/-- The five ciphertext fields handed to `ArciumClient.decryptPosition`. -/
structure EncryptedPositionData where
  side : ℕ
  sizeUsd : ℕ
  collateral : ℕ
  entryPrice : ℕ
  leverage : ℕ
  deriving DecidableEq

/-- The `DecryptedPosition` result of `decryptPosition`. -/
structure DecryptedPosition where
  side : ℤ
  sizeUsd : ℤ
  collateral : ℤ
  entryPrice : ℤ
  leverage : ℤ
  deriving DecidableEq

/-- Embedding of `ArciumClient.decryptPosition` (arcium-client.ts lines
126–154): each field is decrypted by a separate `cipher.decrypt([c], nonce)`
invocation under the shared secret re-derived from the same key pair. -/
def decryptPosition (ks : Keystream) (dh : ℕ → ℕ → ℕ)
    (privateKey mxePublicKey nonce : ℕ) (d : EncryptedPositionData) :
    DecryptedPosition :=
  let sharedSecret := dh privateKey mxePublicKey
  { side := (cipherDecrypt ks sharedSecret nonce [d.side]).headI
    sizeUsd := (cipherDecrypt ks sharedSecret nonce [d.sizeUsd]).headI
    collateral := (cipherDecrypt ks sharedSecret nonce [d.collateral]).headI
    entryPrice := (cipherDecrypt ks sharedSecret nonce [d.entryPrice]).headI
    leverage := (cipherDecrypt ks sharedSecret nonce [d.leverage]).headI }

/-- Shifting a sum into the field and back out cancels the pad. -/
lemma emod_add_sub_cancel (a k n : ℤ) : ((a + k) % n - k) % n = a % n := by
  conv_lhs => rw [Int.sub_emod]
  rw [Int.emod_emod_of_dvd _ dvd_rfl, ← Int.sub_emod, add_sub_cancel_right]

lemma fieldModulus_pos : (0 : ℤ) < (fieldModulus : ℤ) := by
  norm_num [fieldModulus]

/-- Round trip of a single field element through the cipher model: decrypting
with the same secret, nonce and stream position recovers any plaintext that
lies within the field's range. -/
lemma cipherRoundTripVal (ks : Keystream) (secret nonce i : ℕ) (v : ℤ)
    (h0 : 0 ≤ v) (h1 : v < (fieldModulus : ℤ)) :
    cipherDecryptVal ks secret nonce i (cipherEncryptVal ks secret nonce i v) = v := by
  have hmod : (0 : ℤ) ≤ (v + (ks secret nonce i : ℤ)) % (fieldModulus : ℤ) :=
    Int.emod_nonneg _ (ne_of_gt fieldModulus_pos)
  rw [cipherDecryptVal, cipherEncryptVal, Int.toNat_of_nonneg hmod,
    emod_add_sub_cancel, Int.emod_eq_of_lt h0 h1]

/-- Encrypting under the same secret, nonce and stream position masks two
plaintexts with the same pad, so the ciphertext difference equals the
plaintext difference in the field, independently of the key. -/
lemma cipher_same_pad_leak (ks : Keystream) (secret nonce i : ℕ) (m1 m2 : ℤ) :
    ((cipherEncryptVal ks secret nonce i m1 : ℤ) -
      (cipherEncryptVal ks secret nonce i m2 : ℤ)) % (fieldModulus : ℤ)
      = (m1 - m2) % (fieldModulus : ℤ) := by
  have h1 : (0 : ℤ) ≤ (m1 + (ks secret nonce i : ℤ)) % (fieldModulus : ℤ) :=
    Int.emod_nonneg _ (ne_of_gt fieldModulus_pos)
  have h2 : (0 : ℤ) ≤ (m2 + (ks secret nonce i : ℤ)) % (fieldModulus : ℤ) :=
    Int.emod_nonneg _ (ne_of_gt fieldModulus_pos)
  rw [cipherEncryptVal, cipherEncryptVal, Int.toNat_of_nonneg h1,
    Int.toNat_of_nonneg h2, ← Int.sub_emod]
  ring_nf

lemma sideToInt_nonneg (s : Side) : 0 ≤ sideToInt s := by
  cases s <;> simp [sideToInt]

lemma sideToInt_lt_fieldModulus (s : Side) : sideToInt s < (fieldModulus : ℤ) := by
  cases s <;> norm_num [sideToInt, fieldModulus]

/-- C1: for trade parameters whose scaled values lie in the field's range,
decrypting the ciphertexts produced by `encryptTradeParams` with the same
shared secret and nonce (as `decryptPosition` does) returns exactly the
scaled plaintext values that were encrypted. -/
theorem encrypt_decrypt_round_trip (ks : Keystream) (dh : ℕ → ℕ → ℕ)
    (privateKey mxePublicKey publicKey nonce lev : ℕ) (tp : TradeParams)
    (hsz0 : 0 ≤ ⌊tp.sizeUsd * 1000000⌋)
    (hsz1 : ⌊tp.sizeUsd * 1000000⌋ < (fieldModulus : ℤ))
    (hco0 : 0 ≤ ⌊tp.collateral * 1000000⌋)
    (hco1 : ⌊tp.collateral * 1000000⌋ < (fieldModulus : ℤ))
    (hep0 : 0 ≤ ⌊tp.entryPrice * 1000000⌋)
    (hep1 : ⌊tp.entryPrice * 1000000⌋ < (fieldModulus : ℤ)) :
    decryptPosition ks dh privateKey mxePublicKey nonce
      { side := (encryptTradeParams ks dh privateKey mxePublicKey publicKey nonce tp).side
        sizeUsd := (encryptTradeParams ks dh privateKey mxePublicKey publicKey nonce tp).sizeUsd
        collateral := (encryptTradeParams ks dh privateKey mxePublicKey publicKey nonce tp).collateral
        entryPrice := (encryptTradeParams ks dh privateKey mxePublicKey publicKey nonce tp).entryPrice
        leverage := lev }
      = { side := sideToInt tp.side
          sizeUsd := ⌊tp.sizeUsd * 1000000⌋
          collateral := ⌊tp.collateral * 1000000⌋
          entryPrice := ⌊tp.entryPrice * 1000000⌋
          leverage := cipherDecryptVal ks (dh privateKey mxePublicKey) nonce 0 lev } := by
  simp only [encryptTradeParams, decryptPosition, cipherEncrypt, cipherDecrypt,
    cipherEncryptFrom, cipherDecryptFrom, List.headI, DecryptedPosition.mk.injEq]
  exact ⟨cipherRoundTripVal ks _ nonce 0 _ (sideToInt_nonneg tp.side)
      (sideToInt_lt_fieldModulus tp.side),
    cipherRoundTripVal ks _ nonce 0 _ hsz0 hsz1,
    cipherRoundTripVal ks _ nonce 0 _ hco0 hco1,
    cipherRoundTripVal ks _ nonce 0 _ hep0 hep1, trivial⟩

/-- Witness for C1 at concrete inputs: a long position of size $1000,
collateral $100, entry price $100, under a concrete keystream and key pair. -/
theorem encrypt_decrypt_round_trip_witness :
    (0 ≤ ⌊(1000 : ℚ) * 1000000⌋) ∧ (⌊(1000 : ℚ) * 1000000⌋ < (fieldModulus : ℤ)) ∧
    (0 ≤ ⌊(100 : ℚ) * 1000000⌋) ∧ (⌊(100 : ℚ) * 1000000⌋ < (fieldModulus : ℤ)) ∧
    decryptPosition (fun _ _ _ => 5) (fun a b => a + b) 1 2 4
      { side := (encryptTradeParams (fun _ _ _ => 5) (fun a b => a + b) 1 2 3 4
          ⟨Side.long, 1000, 100, 100⟩).side
        sizeUsd := (encryptTradeParams (fun _ _ _ => 5) (fun a b => a + b) 1 2 3 4
          ⟨Side.long, 1000, 100, 100⟩).sizeUsd
        collateral := (encryptTradeParams (fun _ _ _ => 5) (fun a b => a + b) 1 2 3 4
          ⟨Side.long, 1000, 100, 100⟩).collateral
        entryPrice := (encryptTradeParams (fun _ _ _ => 5) (fun a b => a + b) 1 2 3 4
          ⟨Side.long, 1000, 100, 100⟩).entryPrice
        leverage := 0 }
      = { side := sideToInt Side.long
          sizeUsd := ⌊(1000 : ℚ) * 1000000⌋
          collateral := ⌊(100 : ℚ) * 1000000⌋
          entryPrice := ⌊(100 : ℚ) * 1000000⌋
          leverage := cipherDecryptVal (fun _ _ _ => 5) 3 4 0 0 } :=
  ⟨by norm_num, by norm_num [fieldModulus], by norm_num, by norm_num [fieldModulus],
    encrypt_decrypt_round_trip (fun _ _ _ => 5) (fun a b => a + b) 1 2 3 4 0
      ⟨Side.long, 1000, 100, 100⟩
      (by norm_num) (by norm_num [fieldModulus]) (by norm_num)
      (by norm_num [fieldModulus]) (by norm_num) (by norm_num [fieldModulus])⟩

/-- C10: the client encodes the side as 1 for long and 0 for short before
encryption, and `decryptPosition` returns the side under that same numeric
encoding, for every encrypt/decrypt call. -/
theorem side_encoding_fixed :
    sideToInt Side.long = 1 ∧ sideToInt Side.short = 0 ∧
    ∀ (ks : Keystream) (dh : ℕ → ℕ → ℕ)
      (privateKey mxePublicKey publicKey nonce lev : ℕ) (tp : TradeParams),
      (decryptPosition ks dh privateKey mxePublicKey nonce
        { side := (encryptTradeParams ks dh privateKey mxePublicKey publicKey nonce tp).side
          sizeUsd := 0, collateral := 0, entryPrice := 0, leverage := lev }).side
        = sideToInt tp.side := by
  refine ⟨rfl, rfl, ?_⟩
  intro ks dh privateKey mxePublicKey publicKey nonce lev tp
  simp only [encryptTradeParams, decryptPosition, cipherEncrypt, cipherDecrypt,
    cipherEncryptFrom, cipherDecryptFrom, List.headI]
  exact cipherRoundTripVal ks _ nonce 0 _ (sideToInt_nonneg tp.side)
    (sideToInt_lt_fieldModulus tp.side)

/-- C2 evidence: `encryptTradeParams` draws one nonce per call (line 99) and
uses it for all four separate `cipher.encrypt` invocations (lines 108–111),
so two distinct plaintexts are masked by the same (secret, nonce) pad.  At
the concrete failing input (long, $1000 size, $100 collateral, $100 entry)
the difference of the size and collateral ciphertexts equals the plaintext
difference 900000000 in the field, for every keystream, key pair and nonce —
the claimed per-invocation nonce freshness fails and confidentiality is
broken. -/
theorem nonce_reuse_leaks_plaintext_difference :
    ∀ (ks : Keystream) (dh : ℕ → ℕ → ℕ) (privateKey mxePublicKey publicKey nonce : ℕ),
      (((encryptTradeParams ks dh privateKey mxePublicKey publicKey nonce
            ⟨Side.long, 1000, 100, 100⟩).sizeUsd : ℤ) -
          ((encryptTradeParams ks dh privateKey mxePublicKey publicKey nonce
            ⟨Side.long, 1000, 100, 100⟩).collateral : ℤ)) % (fieldModulus : ℤ)
        = 900000000 ∧
      (encryptTradeParams ks dh privateKey mxePublicKey publicKey nonce
          ⟨Side.long, 1000, 100, 100⟩).nonce = nonce ∧
      (⌊(1000 : ℚ) * 1000000⌋ : ℤ) ≠ ⌊(100 : ℚ) * 1000000⌋ := by
  intro ks dh privateKey mxePublicKey publicKey nonce
  refine ⟨?_, rfl, by norm_num⟩
  have hsz : (encryptTradeParams ks dh privateKey mxePublicKey publicKey nonce
      ⟨Side.long, 1000, 100, 100⟩).sizeUsd
      = cipherEncryptVal ks (dh privateKey mxePublicKey) nonce 0
          ⌊(1000 : ℚ) * 1000000⌋ := rfl
  have hco : (encryptTradeParams ks dh privateKey mxePublicKey publicKey nonce
      ⟨Side.long, 1000, 100, 100⟩).collateral
      = cipherEncryptVal ks (dh privateKey mxePublicKey) nonce 0
          ⌊(100 : ℚ) * 1000000⌋ := rfl
  rw [hsz, hco, cipher_same_pad_leak,
    show ⌊(1000 : ℚ) * 1000000⌋ = 1000000000 from by norm_num,
    show ⌊(100 : ℚ) * 1000000⌋ = 100000000 from by norm_num,
    show (1000000000 : ℤ) - 100000000 = 900000000 from by norm_num,
    Int.emod_eq_of_lt (by norm_num) (by norm_num [fieldModulus])]

/-- C3: for non-negative numeric trade parameters, the plaintext value
submitted for encryption is exactly `floor(x * 1000000)` and that value is a
non-negative integer (6 implicit decimals). -/
theorem plaintexts_scaled_six_decimals (ks : Keystream) (dh : ℕ → ℕ → ℕ)
    (privateKey mxePublicKey publicKey nonce : ℕ) (tp : TradeParams)
    (h1 : 0 ≤ tp.sizeUsd) (h2 : 0 ≤ tp.collateral) (h3 : 0 ≤ tp.entryPrice) :
    (encryptTradeParams ks dh privateKey mxePublicKey publicKey nonce tp).sizeUsd
      = cipherEncryptVal ks (dh privateKey mxePublicKey) nonce 0
          ⌊tp.sizeUsd * 1000000⌋ ∧
    (encryptTradeParams ks dh privateKey mxePublicKey publicKey nonce tp).collateral
      = cipherEncryptVal ks (dh privateKey mxePublicKey) nonce 0
          ⌊tp.collateral * 1000000⌋ ∧
    (encryptTradeParams ks dh privateKey mxePublicKey publicKey nonce tp).entryPrice
      = cipherEncryptVal ks (dh privateKey mxePublicKey) nonce 0
          ⌊tp.entryPrice * 1000000⌋ ∧
    0 ≤ ⌊tp.sizeUsd * 1000000⌋ ∧ 0 ≤ ⌊tp.collateral * 1000000⌋ ∧
    0 ≤ ⌊tp.entryPrice * 1000000⌋ := by
  refine ⟨rfl, rfl, rfl, ?_, ?_, ?_⟩
  · exact Int.floor_nonneg.mpr (mul_nonneg h1 (by norm_num))
  · exact Int.floor_nonneg.mpr (mul_nonneg h2 (by norm_num))
  · exact Int.floor_nonneg.mpr (mul_nonneg h3 (by norm_num))

/-- Witness for C3 at a concrete input (short, $5, $2, $7). -/
theorem plaintexts_scaled_six_decimals_witness :
    (0 ≤ (5 : ℚ)) ∧ (0 ≤ (2 : ℚ)) ∧ (0 ≤ (7 : ℚ)) ∧
    ((encryptTradeParams (fun _ _ _ => 11) (fun a b => a * b) 2 3 4 6
        ⟨Side.short, 5, 2, 7⟩).sizeUsd
      = cipherEncryptVal (fun _ _ _ => 11) 6 6 0 ⌊(5 : ℚ) * 1000000⌋ ∧
    (encryptTradeParams (fun _ _ _ => 11) (fun a b => a * b) 2 3 4 6
        ⟨Side.short, 5, 2, 7⟩).collateral
      = cipherEncryptVal (fun _ _ _ => 11) 6 6 0 ⌊(2 : ℚ) * 1000000⌋ ∧
    (encryptTradeParams (fun _ _ _ => 11) (fun a b => a * b) 2 3 4 6
        ⟨Side.short, 5, 2, 7⟩).entryPrice
      = cipherEncryptVal (fun _ _ _ => 11) 6 6 0 ⌊(7 : ℚ) * 1000000⌋ ∧
    0 ≤ ⌊(5 : ℚ) * 1000000⌋ ∧ 0 ≤ ⌊(2 : ℚ) * 1000000⌋ ∧ 0 ≤ ⌊(7 : ℚ) * 1000000⌋) :=
  ⟨by norm_num, by norm_num, by norm_num,
    plaintexts_scaled_six_decimals (fun _ _ _ => 11) (fun a b => a * b) 2 3 4 6
      ⟨Side.short, 5, 2, 7⟩ (by norm_num) (by norm_num) (by norm_num)⟩

/-- The mutable state of an `ArciumClient`: the cached MXE public key
(`this.mxePublicKey`, initially `null`). -/
structure ClientState where
  mxePublicKey : Option (List ℕ)
  deriving DecidableEq

/-- Key extraction from the MXE config account data (arcium-client.ts line
75): 8 bytes of discriminator followed by 32 bytes of public key,
`accountInfo.data.slice(8, 40)`. -/
def extractMXEKey (data : List ℕ) : List ℕ :=
  (data.drop 8).take 32

/-- Embedding of `ArciumClient.getMXEPublicKey` (arcium-client.ts lines
56–81) as a state transition.  `account` is what the ledger returns for the
MXE config PDA at this moment (`none` when the account is absent); a cached
key is returned without consulting the ledger, an absent account raises the
error the catch block rethrows, and a present account's key is extracted
and cached. -/
def getMXEPublicKey (account : Option (List ℕ)) (st : ClientState) :
    ClientState × Except String (List ℕ) :=
  match st.mxePublicKey with
  | some k => (st, Except.ok k)
  | none =>
    match account with
    | none => (st, Except.error "Could not initialize Arcium encryption")
    | some data =>
        ({ mxePublicKey := some (extractMXEKey data) },
          Except.ok (extractMXEKey data))

/-- One pass of the retry loop of `getMXEPublicKeyWithRetry` (tests, lines
97–119): `fetch a` is the outcome of attempt `a` of the library key fetch
(`none` covers both an undefined result and a thrown error, which the loop
catches and logs); the fuel counts the remaining attempts. -/
def getMXEPublicKeyRetryGo (fetch : ℕ → Option (List ℕ)) (maxRetries : ℕ) :
    ℕ → ℕ → Except String (List ℕ)
  | _, 0 => Except.error
      ("Failed to fetch MXE public key after " ++ toString maxRetries ++ " attempts")
  | attempt, fuel + 1 =>
    match fetch attempt with
    | some k => Except.ok k
    | none => getMXEPublicKeyRetryGo fetch maxRetries (attempt + 1) fuel

/-- Embedding of `getMXEPublicKeyWithRetry` (tests, lines 97–119): attempts
`1..maxRetries`, returning the first successfully fetched key, and failing
with the terminal timeout error once every attempt is exhausted. -/
def getMXEPublicKeyWithRetry (fetch : ℕ → Option (List ℕ))
    (maxRetries : ℕ) : Except String (List ℕ) :=
  getMXEPublicKeyRetryGo fetch maxRetries 1 maxRetries

/-- The retry bound the test suite passes at the call site (tests, line 275). -/
def mxeFetchMaxRetries : ℕ := 20

/-- The spacing between retries in milliseconds at the call site (tests,
line 276). -/
def mxeFetchRetryDelayMs : ℕ := 2000

/-- The Arcium environment record used by the test harness `before` hook. -/
structure ArciumEnv where
  arciumClusterPubkey : String
  mxeProgramId : String
  deriving DecidableEq

/-- The hardcoded fallback environment of the `before` hook (tests, lines
259–266): a fixed cluster public key and the program's own id. -/
def fallbackArciumEnv (programId : String) : ArciumEnv :=
  { arciumClusterPubkey := "2E4qQsaFWEWFbyKRDEaK2bAWQLFnk9MDRv6PCpViArmN"
    mxeProgramId := programId }

/-- Embedding of the `before` hook's configuration resolution (tests, lines
253–267): `getArciumEnv()` succeeding yields its environment; its failure is
caught and the hardcoded fallback is substituted. -/
def resolveArciumEnv (programId : String) (fetched : Except String ArciumEnv) :
    ArciumEnv :=
  match fetched with
  | Except.ok env => env
  | Except.error _ => fallbackArciumEnv programId

/-- Errors of the position ledger named by the spec that the claims touch. -/
inductive PerpError where
  | PositionInactive
  | NonceMismatch
  deriving DecidableEq

/-- Modelled from the spec: the public mutable scalars of the on-ledger
position record (the Anchor program is not under src/; only its tests are).
Per the spec the nonce and the active flag are the only mutable public
scalars besides timestamps. -/
structure PositionState where
  isActive : Bool
  nonce : ℕ
  deriving DecidableEq

/-- Modelled from the spec: applying the finalization callback of a
successful `open`.  The pre-open nonce is 0/unset; the spec requires the
nonce to change on every successful state-mutating computation, so a
callback that would leave it at its pre-open value is rejected as a
consistency error. -/
def applyOpenFinalization (newNonce : ℕ) : Except PerpError PositionState :=
  if newNonce = 0 then Except.error PerpError.NonceMismatch
  else Except.ok { isActive := true, nonce := newNonce }

/-- Modelled from the spec: applying the finalization callback of an
`update` (adjust collateral).  A finalization referencing a nonce that no
longer matches the current position state is rejected (`NonceMismatch`), an
inactive position is rejected (`PositionInactive`), and a successful
callback must advance the nonce. -/
def applyUpdateFinalization (pos : PositionState) (expectedNonce newNonce : ℕ) :
    Except PerpError PositionState :=
  if pos.isActive = false then Except.error PerpError.PositionInactive
  else if expectedNonce ≠ pos.nonce then Except.error PerpError.NonceMismatch
  else if newNonce = pos.nonce then Except.error PerpError.NonceMismatch
  else Except.ok { isActive := true, nonce := newNonce }

/-- Modelled from the spec: applying the finalization callback of a
`close`/`liquidate`: same guards as `update`, and the active flag flips to
false while the record itself is kept. -/
def applyCloseFinalization (pos : PositionState) (expectedNonce newNonce : ℕ) :
    Except PerpError PositionState :=
  if pos.isActive = false then Except.error PerpError.PositionInactive
  else if expectedNonce ≠ pos.nonce then Except.error PerpError.NonceMismatch
  else if newNonce = pos.nonce then Except.error PerpError.NonceMismatch
  else Except.ok { isActive := false, nonce := newNonce }

/-- Embedding of the dashboard's PnL computation
(trading-dashboard.tsx lines 74–91): `priceDiff = marketPrice - entryPrice`,
signed PnL is `(priceDiff / entryPrice) * size` for a long and its negation
for a short. -/
def dashboardPnl (side : Side) (entryPrice size marketPrice : ℚ) : ℚ :=
  let priceDiff := marketPrice - entryPrice
  match side with
  | Side.long => priceDiff / entryPrice * size
  | Side.short => -(priceDiff / entryPrice) * size

/-- Modelled from the spec: the `calculate_pnl` MPC circuit (not under src/;
only its test and the dashboard mirror are).  It reveals profit and loss in
plaintext with exactly one of them non-zero (both zero at parity), agreeing
in sign and magnitude with the dashboard's signed PnL. -/
def calculatePnl (side : Side) (sizeUsd entryPrice currentPrice : ℚ) : ℚ × ℚ :=
  let pnl := dashboardPnl side entryPrice sizeUsd currentPrice
  (max pnl 0, max (-pnl) 0)

/-- Big-endian byte decoding as performed by `new BN(randomBytes(8), 'hex')`
(arcium-client.ts line 176 and the test submissions). -/
def bnFromBytesBE (bytes : List ℕ) : ℕ :=
  bytes.foldl (fun acc b => acc * 256 + b) 0

/-- Embedding of `ArciumClient.generateComputationOffset` (arcium-client.ts
lines 175–177): `bytes` is the fresh 8-byte draw of `randomBytes(8)` made on
each call. -/
def generateComputationOffset (bytes : List ℕ) : ℕ :=
  bnFromBytesBE bytes

/-- A successful `getMXEPublicKey` call leaves the returned key in the cache. -/
lemma getMXEPublicKey_cache_set (account : Option (List ℕ))
    (st st1 : ClientState) (k : List ℕ)
    (h : getMXEPublicKey account st = (st1, Except.ok k)) :
    st1.mxePublicKey = some k := by
  rcases st with ⟨mk⟩
  cases mk with
  | some k0 =>
    simp only [getMXEPublicKey, Prod.mk.injEq, Except.ok.injEq] at h
    rw [← h.1, h.2]
  | none =>
    cases account with
    | none => simp [getMXEPublicKey] at h
    | some data =>
      simp only [getMXEPublicKey, Prod.mk.injEq, Except.ok.injEq] at h
      rw [← h.1, h.2]

/-- A call on a client whose cache holds `k` returns `k` and touches nothing. -/
lemma getMXEPublicKey_cache_hit (st : ClientState) (k : List ℕ)
    (h : st.mxePublicKey = some k) (account : Option (List ℕ)) :
    getMXEPublicKey account st = (st, Except.ok k) := by
  simp only [getMXEPublicKey, h]

/-- C5: the cluster public key is fetched at most once per client: after one
successful `getMXEPublicKey` call, every subsequent call returns the identical
cached key with the state unchanged, whatever the ledger would now return
(i.e. no further ledger fetch is performed). -/
theorem mxe_key_cached_after_success (account1 : Option (List ℕ))
    (st st1 : ClientState) (k : List ℕ)
    (h : getMXEPublicKey account1 st = (st1, Except.ok k)) :
    ∀ account2, getMXEPublicKey account2 st1 = (st1, Except.ok k) :=
  fun account2 =>
    getMXEPublicKey_cache_hit st1 k (getMXEPublicKey_cache_set account1 st st1 k h) account2

/-- Witness for C5: a first fetch against a 40-byte account caches the 32-byte
key; a second call with the account now absent still returns it. -/
theorem mxe_key_cached_after_success_witness :
    getMXEPublicKey (some (List.replicate 40 7)) { mxePublicKey := none }
      = ({ mxePublicKey := some (List.replicate 32 7) },
          Except.ok (List.replicate 32 7)) ∧
    getMXEPublicKey none { mxePublicKey := some (List.replicate 32 7) }
      = ({ mxePublicKey := some (List.replicate 32 7) },
          Except.ok (List.replicate 32 7)) :=
  ⟨rfl, mxe_key_cached_after_success (some (List.replicate 40 7))
    { mxePublicKey := none } { mxePublicKey := some (List.replicate 32 7) }
    (List.replicate 32 7) rfl none⟩

/-- C4: fetching the MXE public key with the on-ledger account absent fails
with an error; the test harness retries the fetch `mxeFetchMaxRetries = 20`
times with 2000 ms spacing, and exhausting every attempt surfaces the
distinct terminal timeout error rather than succeeding. -/
theorem mxe_key_fetch_fails_and_retries (fetch : ℕ → Option (List ℕ))
    (h : ∀ a, fetch a = none) :
    getMXEPublicKey none { mxePublicKey := none }
      = ({ mxePublicKey := none },
          Except.error "Could not initialize Arcium encryption") ∧
    getMXEPublicKeyWithRetry fetch mxeFetchMaxRetries
      = Except.error "Failed to fetch MXE public key after 20 attempts" ∧
    mxeFetchMaxRetries = 20 ∧ 1000 ≤ mxeFetchRetryDelayMs := by
  refine ⟨rfl, ?_, rfl, by norm_num [mxeFetchRetryDelayMs]⟩
  have go : ∀ fuel attempt, getMXEPublicKeyRetryGo fetch 20 attempt fuel
      = Except.error ("Failed to fetch MXE public key after "
          ++ toString (20 : ℕ) ++ " attempts") := by
    intro fuel
    induction fuel with
    | zero => intro attempt; rfl
    | succ n ih => intro attempt; simp [getMXEPublicKeyRetryGo, h attempt, ih]
  exact go 20 1

/-- Witness for C4: the ledger account is absent on every attempt. -/
theorem mxe_key_fetch_fails_and_retries_witness :
    (∀ a : ℕ, (fun _ : ℕ => (none : Option (List ℕ))) a = none) ∧
    (getMXEPublicKey none { mxePublicKey := none }
      = ({ mxePublicKey := none },
          Except.error "Could not initialize Arcium encryption") ∧
    getMXEPublicKeyWithRetry (fun _ : ℕ => (none : Option (List ℕ)))
        mxeFetchMaxRetries
      = Except.error "Failed to fetch MXE public key after 20 attempts" ∧
    mxeFetchMaxRetries = 20 ∧ 1000 ≤ mxeFetchRetryDelayMs) :=
  ⟨fun _ => rfl,
    mxe_key_fetch_fails_and_retries (fun _ => none) (fun _ => rfl)⟩

/-- What a successful open finalization guarantees. -/
lemma applyOpen_ok (n : ℕ) (p : PositionState)
    (h : applyOpenFinalization n = Except.ok p) :
    p.nonce = n ∧ n ≠ 0 ∧ p.isActive = true := by
  unfold applyOpenFinalization at h
  split_ifs at h with hz
  rw [Except.ok.injEq] at h
  rw [← h]
  exact ⟨rfl, hz, rfl⟩

/-- What a successful update finalization guarantees. -/
lemma applyUpdate_ok (pos : PositionState) (e n : ℕ) (p : PositionState)
    (h : applyUpdateFinalization pos e n = Except.ok p) :
    p.nonce = n ∧ n ≠ pos.nonce ∧ p.isActive = true := by
  unfold applyUpdateFinalization at h
  split_ifs at h with ha hb hc
  rw [Except.ok.injEq] at h
  rw [← h]
  exact ⟨rfl, hc, rfl⟩

/-- What a successful close finalization guarantees. -/
lemma applyClose_ok (pos : PositionState) (e n : ℕ) (p : PositionState)
    (h : applyCloseFinalization pos e n = Except.ok p) :
    p.nonce = n ∧ n ≠ pos.nonce ∧ p.isActive = false := by
  unfold applyCloseFinalization at h
  split_ifs at h with ha hb hc
  rw [Except.ok.injEq] at h
  rw [← h]
  exact ⟨rfl, hc, rfl⟩

/-- C6: across a successful open, two successful sequential updates and a
successful close, the stored nonce strictly differs from its pre-operation
value at every step (in particular the two sequential updates never produce
the same nonce), and the close deactivates the position. -/
theorem position_nonce_advances
    (n1 : ℕ) (p1 : PositionState) (h1 : applyOpenFinalization n1 = Except.ok p1)
    (e2 n2 : ℕ) (p2 : PositionState)
    (h2 : applyUpdateFinalization p1 e2 n2 = Except.ok p2)
    (e3 n3 : ℕ) (p3 : PositionState)
    (h3 : applyUpdateFinalization p2 e3 n3 = Except.ok p3)
    (e4 n4 : ℕ) (p4 : PositionState)
    (h4 : applyCloseFinalization p3 e4 n4 = Except.ok p4) :
    p1.nonce ≠ 0 ∧ p2.nonce ≠ p1.nonce ∧ p3.nonce ≠ p2.nonce ∧
    p4.nonce ≠ p3.nonce ∧ p4.isActive = false := by
  obtain ⟨q1, hz, _⟩ := applyOpen_ok n1 p1 h1
  obtain ⟨q2, hne2, _⟩ := applyUpdate_ok p1 e2 n2 p2 h2
  obtain ⟨q3, hne3, _⟩ := applyUpdate_ok p2 e3 n3 p3 h3
  obtain ⟨q4, hne4, hact⟩ := applyClose_ok p3 e4 n4 p4 h4
  refine ⟨?_, ?_, ?_, ?_, hact⟩
  · rw [q1]; exact hz
  · rw [q2]; exact hne2
  · rw [q3]; exact hne3
  · rw [q4]; exact hne4

/-- Witness for C6: open with nonce 5, update to 9, update to 13, close
with 21. -/
theorem position_nonce_advances_witness :
    applyOpenFinalization 5 = Except.ok { isActive := true, nonce := 5 } ∧
    applyUpdateFinalization { isActive := true, nonce := 5 } 5 9
      = Except.ok { isActive := true, nonce := 9 } ∧
    applyUpdateFinalization { isActive := true, nonce := 9 } 9 13
      = Except.ok { isActive := true, nonce := 13 } ∧
    applyCloseFinalization { isActive := true, nonce := 13 } 13 21
      = Except.ok { isActive := false, nonce := 21 } ∧
    (({ isActive := true, nonce := 5 } : PositionState).nonce ≠ 0 ∧
      ({ isActive := true, nonce := 9 } : PositionState).nonce
        ≠ ({ isActive := true, nonce := 5 } : PositionState).nonce ∧
      ({ isActive := true, nonce := 13 } : PositionState).nonce
        ≠ ({ isActive := true, nonce := 9 } : PositionState).nonce ∧
      ({ isActive := false, nonce := 21 } : PositionState).nonce
        ≠ ({ isActive := true, nonce := 13 } : PositionState).nonce ∧
      ({ isActive := false, nonce := 21 } : PositionState).isActive = false) :=
  ⟨rfl, rfl, rfl, rfl,
    position_nonce_advances 5 _ rfl 5 9 _ rfl 9 13 _ rfl 13 21 _ rfl⟩

/-- C7: with positive entry price and size, a long position against a higher
current price yields profit `(current - entry) / entry * size` and zero
loss, while a short position against the same price increase yields positive
loss and zero profit. -/
theorem pnl_long_profit_short_loss (entryPrice size currentPrice : ℚ)
    (hE : 0 < entryPrice) (hS : 0 < size) (hC : entryPrice < currentPrice) :
    (calculatePnl Side.long size entryPrice currentPrice).1
        = (currentPrice - entryPrice) / entryPrice * size ∧
    (calculatePnl Side.long size entryPrice currentPrice).2 = 0 ∧
    0 < (calculatePnl Side.short size entryPrice currentPrice).2 ∧
    (calculatePnl Side.short size entryPrice currentPrice).1 = 0 := by
  have hpos : 0 < (currentPrice - entryPrice) / entryPrice * size :=
    mul_pos (div_pos (sub_pos.mpr hC) hE) hS
  have hneg : -((currentPrice - entryPrice) / entryPrice) * size
      = -((currentPrice - entryPrice) / entryPrice * size) := by ring
  unfold calculatePnl dashboardPnl
  refine ⟨max_eq_left hpos.le, ?_, ?_, ?_⟩
  · exact max_eq_right (neg_nonpos.mpr hpos.le)
  · show 0 < max (-(-((currentPrice - entryPrice) / entryPrice) * size)) 0
    rw [hneg, neg_neg]
    exact lt_of_lt_of_le hpos (le_max_left _ _)
  · show max (-((currentPrice - entryPrice) / entryPrice) * size) 0 = 0
    rw [hneg]
    exact max_eq_right (neg_nonpos.mpr hpos.le)

/-- Witness for C7: entry $100, size $1000, current price $110 — the long
profit is 10% of notional and the short loses. -/
theorem pnl_long_profit_short_loss_witness :
    (0 < (100 : ℚ)) ∧ (0 < (1000 : ℚ)) ∧ ((100 : ℚ) < 110) ∧
    ((calculatePnl Side.long 1000 100 110).1 = ((110 : ℚ) - 100) / 100 * 1000 ∧
      (calculatePnl Side.long 1000 100 110).2 = 0 ∧
      0 < (calculatePnl Side.short 1000 100 110).2 ∧
      (calculatePnl Side.short 1000 100 110).1 = 0) :=
  ⟨by norm_num, by norm_num, by norm_num,
    pnl_long_profit_short_loss 100 1000 110 (by norm_num) (by norm_num) (by norm_num)⟩

/-- C8 counterexample: at the concrete failing fetch, the caller receives the
hardcoded fallback configuration — not an unavailability result (the
resolution's return type has no failure case at all), refuting the claim. -/
theorem config_fallback_counterexample :
    resolveArciumEnv "shootProgram" (Except.error "getArciumEnv failed")
        = fallbackArciumEnv "shootProgram" ∧
    (fallbackArciumEnv "shootProgram").arciumClusterPubkey
        = "2E4qQsaFWEWFbyKRDEaK2bAWQLFnk9MDRv6PCpViArmN" :=
  ⟨rfl, rfl⟩

/-- C8 amended: when the configuration fetch fails, the `before` hook
silently substitutes the hardcoded fallback environment (fixed cluster
public key, the program's own id) for every program id and every failure
message. -/
theorem config_fallback_amended (programId msg : String) :
    resolveArciumEnv programId (Except.error msg)
      = fallbackArciumEnv programId := rfl

lemma foldl_base256_bound (l : List ℕ) : ∀ acc : ℕ, (∀ b ∈ l, b < 256) →
    l.foldl (fun a b => a * 256 + b) acc < (acc + 1) * 256 ^ l.length := by
  induction l with
  | nil => intro acc _; simp
  | cons b t ih =>
    intro acc h
    have hb : b < 256 := h b (List.mem_cons_self b t)
    have ht : ∀ x ∈ t, x < 256 := fun x hx => h x (List.mem_cons_of_mem b hx)
    calc (b :: t).foldl (fun a b => a * 256 + b) acc
        = t.foldl (fun a b => a * 256 + b) (acc * 256 + b) := rfl
      _ < (acc * 256 + b + 1) * 256 ^ t.length := ih (acc * 256 + b) ht
      _ ≤ ((acc + 1) * 256) * 256 ^ t.length :=
          Nat.mul_le_mul_right _ (by omega)
      _ = (acc + 1) * 256 ^ (b :: t).length := by
          rw [List.length_cons, pow_succ]; ring

lemma foldl_base256_inj (l1 : List ℕ) : ∀ (l2 : List ℕ) (acc1 acc2 : ℕ),
    l1.length = l2.length → (∀ b ∈ l1, b < 256) → (∀ b ∈ l2, b < 256) →
    l1.foldl (fun a b => a * 256 + b) acc1
      = l2.foldl (fun a b => a * 256 + b) acc2 →
    acc1 = acc2 ∧ l1 = l2 := by
  induction l1 with
  | nil =>
    intro l2 acc1 acc2 hlen _ _ heq
    cases l2 with
    | nil => exact ⟨heq, rfl⟩
    | cons b2 t2 => simp at hlen
  | cons b1 t1 ih =>
    intro l2 acc1 acc2 hlen h1 h2 heq
    cases l2 with
    | nil => simp at hlen
    | cons b2 t2 =>
      have hlen2 : t1.length = t2.length := by simpa using hlen
      have hb1 : b1 < 256 := h1 b1 (List.mem_cons_self b1 t1)
      have hb2 : b2 < 256 := h2 b2 (List.mem_cons_self b2 t2)
      have ht1 : ∀ x ∈ t1, x < 256 := fun x hx => h1 x (List.mem_cons_of_mem b1 hx)
      have ht2 : ∀ x ∈ t2, x < 256 := fun x hx => h2 x (List.mem_cons_of_mem b2 hx)
      obtain ⟨hacc, hts⟩ := ih t2 (acc1 * 256 + b1) (acc2 * 256 + b2) hlen2 ht1 ht2 heq
      have hsplit : acc1 = acc2 ∧ b1 = b2 := by omega
      exact ⟨hsplit.1, by rw [hsplit.2, hts]⟩

/-- C9: every computation offset built from an 8-byte random draw is a
64-bit value, and the decoding is injective on 8-byte draws, so two
submissions produce the same offset only if the random source repeated the
same bytes. -/
theorem computation_offset_64bit (bytes : List ℕ)
    (hlen : bytes.length = 8) (hb : ∀ b ∈ bytes, b < 256) :
    generateComputationOffset bytes < 2 ^ 64 ∧
    ∀ bytes2, bytes2.length = 8 → (∀ b ∈ bytes2, b < 256) →
      generateComputationOffset bytes = generateComputationOffset bytes2 →
      bytes = bytes2 := by
  constructor
  · have hB := foldl_base256_bound bytes 0 hb
    rw [hlen] at hB
    have h28 : (0 + 1) * 256 ^ 8 = 2 ^ 64 := by norm_num
    rw [h28] at hB
    exact hB
  · intro bytes2 hlen2 hb2 heq
    exact (foldl_base256_inj bytes bytes2 0 0 (by rw [hlen, hlen2]) hb hb2 heq).2

/-- Witness for C9 at the all-ones byte draw. -/
theorem computation_offset_64bit_witness :
    (([255, 255, 255, 255, 255, 255, 255, 255] : List ℕ).length = 8) ∧
    (∀ b ∈ ([255, 255, 255, 255, 255, 255, 255, 255] : List ℕ), b < 256) ∧
    (generateComputationOffset [255, 255, 255, 255, 255, 255, 255, 255] < 2 ^ 64 ∧
      ∀ bytes2, bytes2.length = 8 → (∀ b ∈ bytes2, b < 256) →
        generateComputationOffset [255, 255, 255, 255, 255, 255, 255, 255]
          = generateComputationOffset bytes2 →
        [255, 255, 255, 255, 255, 255, 255, 255] = bytes2) :=
  ⟨rfl, by decide,
    computation_offset_64bit [255, 255, 255, 255, 255, 255, 255, 255] rfl (by decide)⟩
